import Mathlib

/-!
Verification of the roam2tex converter (src/roam2tex.py).

The program is a single-pass, line-oriented translator from Roam-style
indented markdown to LaTeX.  We shallowly embed it here:

* each input line is modelled as a `String` given without its trailing
  newline character (Python's `for line in infile` yields lines with the
  newline attached; nothing in the per-line logic other than the final
  `write` depends on it, and regex anchors `$` match before it);
* the inline substitutions (`re.sub`, `str.split`, `str.replace`) are
  modelled as executable functions on `List Char` mirroring the exact
  regex semantics used by the source (non-greedy groups become
  earliest-match searches, greedy groups become latest-match searches);
* the mutable state of `convert_to_tex` becomes `ConvState`, threaded
  through `processCore`;
* the two places where the Python code can raise are modelled with
  `Except`: the comparison `indent <= par_indent` raises `TypeError`
  when `par_indent` is `None` (`ConvError.compareIntNone`), and
  `enum_indents.remove` raises `ValueError` when the value is absent
  (`ConvError.valueNotInList`).

Python's `environments` list is kept bottom-to-top and popped at the
end; we store the same stack top-first (push = cons), so the Python
traversal `environments[::-1]` is our list order.  `enum_indents` keeps
Python's own order (append at the end, `remove` scans from the front).
-/

/-- Character class `[a-zA-Z]` of the citation-key regex. -/
def isLatinLetter (c : Char) : Bool :=
  (decide ('a' ≤ c) && decide (c ≤ 'z')) || (decide ('A' ≤ c) && decide (c ≤ 'Z'))

/-- Character class `[0-9]` of the citation-key regex. -/
def isDigitCh (c : Char) : Bool :=
  decide ('0' ≤ c) && decide (c ≤ '9')

/-- Split at the earliest occurrence of the two-character sequence `a b`
(the non-greedy search used for `(.*?)` followed by a two-character
literal): returns the part before the occurrence and the part after it. -/
def breakOn2 (a b : Char) : List Char → Option (List Char × List Char)
  | [] => none
  | [_] => none
  | c :: c2 :: rest =>
    if c = a ∧ c2 = b then some ([], rest)
    else
      match breakOn2 a b (c2 :: rest) with
      | some (pre, post) => some (c :: pre, post)
      | none => none

/-- Split at the earliest occurrence of the single character `x`
(the non-greedy search used for `(.*?)` followed by a one-character
literal). -/
def breakOnFirst (x : Char) : List Char → Option (List Char × List Char)
  | [] => none
  | c :: rest =>
    if c = x then some ([], rest)
    else
      match breakOnFirst x rest with
      | some (pre, post) => some (c :: pre, post)
      | none => none

/-- Split at the last occurrence of the single character `x`
(the greedy search used for `(.*)` followed by a one-character literal). -/
def breakOnLast (x : Char) : List Char → Option (List Char × List Char)
  | [] => none
  | c :: rest =>
    match breakOnLast x rest with
    | some (pre, post) => some (c :: pre, post)
    | none => if c = x then some ([], rest) else none

/-- Model of Python `text.split(d)` for the two-character delimiter
`a b`: left-to-right, non-overlapping.  Always returns at least one
chunk, and one chunk more than the number of delimiter occurrences. -/
def splitOn2 (a b : Char) : List Char → List (List Char)
  | [] => [[]]
  | [c] => [[c]]
  | c :: c2 :: rest =>
    if c = a ∧ c2 = b then [] :: splitOn2 a b rest
    else
      match splitOn2 a b (c2 :: rest) with
      | [] => [[c]]
      | chunk :: chunks => (c :: chunk) :: chunks

/-- Number of (left-to-right, non-overlapping) occurrences of the
two-character delimiter `a b`, as counted by Python `str.split`. -/
def countD (a b : Char) : List Char → Nat
  | [] => 0
  | [_] => 0
  | c :: c2 :: rest =>
    if c = a ∧ c2 = b then countD a b rest + 1
    else countD a b (c2 :: rest)

/-- Model of the loop `for i in range(1, len(chunks), 2): chunks[i] = fun(chunks[i])`
in `replace_markup_via`: apply `w` to every odd-indexed chunk. -/
def wrapOdd (w : List Char → List Char) : List (List Char) → List (List Char)
  | [] => []
  | [c] => [c]
  | c :: c2 :: rest => c :: w c2 :: wrapOdd w rest

/-- Specification-side rendering of a chunk list: the chunks between the
1st-2nd, 3rd-4th, ... delimiters are wrapped, the rest copied verbatim.
Defined by direct pair recursion, independently of `wrapOdd`/`join`. -/
def pairJoin (w : List Char → List Char) : List (List Char) → List Char
  | [] => []
  | [c] => c
  | c :: c2 :: rest => c ++ w c2 ++ pairJoin w rest

/-- Model of `replace_markup_via(text, delims, fun)` from the source:
split on the two-character delimiter, transform every odd-indexed chunk,
join with the empty string. -/
def replace_markup_via (text : List Char) (a b : Char) (w : List Char → List Char) : List Char :=
  (wrapOdd w (splitOn2 a b text)).flatten

/-- Wrapper `lambda t : f"\\emph{{{t}}}"` from the source. -/
def femph (t : List Char) : List Char := "\\emph\x7b".data ++ t ++ ['\x7d']

/-- Wrapper `lambda t : f"\\textbf{{{t}}}"` from the source. -/
def fbold (t : List Char) : List Char := "\\textbf\x7b".data ++ t ++ ['\x7d']

/-- Wrapper `lambda t : f"\\hl{{{t}}}"` from the source. -/
def fhl (t : List Char) : List Char := "\\hl\x7b".data ++ t ++ ['\x7d']

/-- Model of `line.replace("$$", "$")`: left-to-right non-overlapping
replacement of the two-character sequence by a single character. -/
def replaceDD : List Char → List Char
  | '$' :: '$' :: rest => '$' :: replaceDD rest
  | c :: rest => c :: replaceDD rest
  | [] => []

/-- Model of `re.match(r"^[a-zA-Z]+[0-9]+[a-zA-Z]*$", link_text)`: one or
more letters, then one or more digits, then zero or more letters, then
the end.  The character classes are disjoint, so greedy matching is
deterministic. -/
def isCitationKey (l : List Char) : Bool :=
  let r1 := l.dropWhile isLatinLetter
  let r2 := r1.dropWhile isDigitCh
  let r3 := r2.dropWhile isLatinLetter
  !(l.takeWhile isLatinLetter).isEmpty && !(r1.takeWhile isDigitCh).isEmpty && r3.isEmpty

/-- Model of `render_citation` from the source.  NOTE: the source returns
the literal string `"\\cite{link_text}"` (the `f` prefix is missing in
`return "\\cite{link_text}"`), so a matching key is replaced by the
sixteen fixed characters `\cite{link_text}`, not by a citation of the
key itself.  The embedding reproduces this faithfully. -/
def render_citation (linkText : List Char) : List Char :=
  if isCitationKey linkText then "\\cite\x7blink_text\x7d".data else linkText

/-- Fuel-driven worker for `re.sub(r"\[\[(.*?)\]\]", render_citation, line)`:
scan left to right; at `[[` take the shortest inner text followed by `]]`,
replace it by `render_citation`, and continue after the match; otherwise
advance one character.  The fuel only bounds the recursion; `l.length + 1`
is always sufficient because every step strictly shrinks the list. -/
def subCitGo : Nat → List Char → List Char
  | 0, l => l
  | _ + 1, [] => []
  | fuel + 1, '[' :: '[' :: rest =>
    (match breakOn2 ']' ']' rest with
     | some (inner, after) => render_citation inner ++ subCitGo fuel after
     | none => '[' :: subCitGo fuel ('[' :: rest))
  | fuel + 1, c :: rest => c :: subCitGo fuel rest

/-- Model of the Roam-link substitution pass (source line 117). -/
def subCit (l : List Char) : List Char := subCitGo (l.length + 1) l

/-- Replacement text `f"\\href{{{m.group(2)}}}{{{m.group(1)}}}"` of the
inline-link substitution. -/
def hrefRender (label target : List Char) : List Char :=
  "\\href\x7b".data ++ target ++ "\x7d\x7b".data ++ label ++ ['\x7d']

/-- Fuel-driven worker for `re.sub(r"\[(.*?)\]\((.*)\)", ..., line)`:
at `[` the label is the shortest text followed by `](`, the target is the
longest text followed by `)` (greedy group), and scanning resumes after
the match.  If no `)` follows the first `](`, none follows any later one
either, so the position fails and scanning advances one character. -/
def subHrefGo : Nat → List Char → List Char
  | 0, l => l
  | _ + 1, [] => []
  | fuel + 1, '[' :: rest =>
    (match breakOn2 ']' '(' rest with
     | some (label, rest2) =>
       match breakOnLast ')' rest2 with
       | some (target, after) => hrefRender label target ++ subHrefGo fuel after
       | none => '[' :: subHrefGo fuel rest
     | none => '[' :: subHrefGo fuel rest)
  | fuel + 1, c :: rest => c :: subHrefGo fuel rest

/-- Model of the inline-link substitution pass (source line 119). -/
def subHref (l : List Char) : List Char := subHrefGo (l.length + 1) l

/-- Model of `re.match(r"^\$\$([^$]*?)\$\$$", line)`: the whole line is
`$$`, then content without any `$`, then `$$` at the end.  Because the
content class excludes `$`, the non-greedy content is exactly the
characters before the first `$` of the remainder, and the remainder
must then be exactly `$$`. -/
def matchEq : List Char → Option (List Char)
  | '$' :: '$' :: rest =>
    let content := rest.takeWhile (fun c => !(c == '$'))
    let after := rest.dropWhile (fun c => !(c == '$'))
    if after = ['$', '$'] then some content else none
  | _ => none

/-- Model of the three heading substitutions (source lines 93-95).  The
three patterns `^# `, `^## `, `^### ` are mutually exclusive, so the
sequential `re.sub` passes equal a first-match dispatch. -/
def applyHeading : List Char → List Char
  | '#' :: ' ' :: rest => '\n' :: "\\section\x7b".data ++ rest ++ ['\x7d']
  | '#' :: '#' :: ' ' :: rest => '\n' :: "\\subsection\x7b".data ++ rest ++ ['\x7d']
  | '#' :: '#' :: '#' :: ' ' :: rest => '\n' :: "\\subsubsection\x7b".data ++ rest ++ ['\x7d']
  | l => l

/-- Model of `re.match(r"\\begin\{(.*?)\}", line)`: if the line starts
with `\begin{`, the environment name is everything up to the first `}`. -/
def envBegin (l : List Char) : Option String :=
  if List.isPrefixOf "\\begin\x7b".data l then
    match breakOnFirst '\x7d' (l.drop 7) with
    | some (name, _) => some (String.mk name)
    | none => none
  else none

/-- Test `env in ["enumerate", "itemize"]` from the source. -/
def isListEnv (env : String) : Bool := env = "enumerate" || env = "itemize"

/-- Closing text `f"\\end{{{env}}}\n"` emitted for one frame. -/
def endTag (env : String) : List Char := ("\\end\x7b" ++ env ++ "\x7d\n").data

/-- Model of `re.sub(r"^ *(- )?", "", line)` after the spaces are gone:
strip one leading markdown bullet `"- "`. -/
def stripBullet : List Char → List Char
  | '-' :: ' ' :: rest => rest
  | l => l

/-- Leading spaces of the raw line, dropped before further processing. -/
def dropIndent (l : List Char) : List Char := l.dropWhile (fun c => c == ' ')

/-- Model of `len(re.match(r" *", line).group())`: the indent is the
number of leading space characters of the raw line. -/
def lineIndent (raw : String) : Nat := (raw.data.takeWhile (fun c => c == ' ')).length

/-- Model of `line.startswith(tuple([f"{s}::" for s in ignore_properties]))`. -/
def ignoredCheck (props : List String) (l : List Char) : Bool :=
  props.any (fun s => List.isPrefixOf (s ++ "::").data l)

/-- Model of `re.sub(r"^\{\{(.+?)\}\}", "", line)`: if the line starts
with `{{` and a `}}` occurs after at least one content character, drop
everything through the earliest such `}}` (the content group is
non-greedy and must be nonempty). -/
def stripDirective : List Char → List Char
  | '{' :: '{' :: c :: rest =>
    (match breakOn2 '\x7d' '\x7d' rest with
     | some (_, post) => post
     | none => '{' :: '{' :: c :: rest)
  | l => l

/-- Configuration of one conversion: the indent size and the ignored
property prefixes (`convert_to_tex` parameters `indent_size` and
`ignore_properties`). -/
structure Config where
  indentSize : Int
  ignoreProps : List String
  deriving DecidableEq

/-- Default configuration of `main`: indent size 4 and ignored
properties `["tags", "do", "due"]`. -/
def defaultConfig : Config := ⟨4, ["tags", "do", "due"]⟩

/-- Mutable state of the conversion loop: `section_indent`, `par_indent`,
`environments` (stored top-first here; Python stores bottom-first and
pops at the end), `enum_indents` (Python's own order). -/
structure ConvState where
  sectionIndent : Option Nat
  parIndent : Option Nat
  environments : List (Nat × String)
  enumIndents : List Int
  deriving DecidableEq

/-- State at the start of a document: both indents `None`, both lists empty. -/
def initState : ConvState := ⟨none, none, [], []⟩

/-- Runtime errors the Python code can raise inside the loop:
`compareIntNone` is the `TypeError` of `indent <= par_indent` when
`par_indent is None`; `valueNotInList` is the `ValueError` of
`enum_indents.remove(x)` when `x` is absent. -/
inductive ConvError where
  | compareIntNone
  | valueNotInList
  deriving DecidableEq

instance {ε α : Type} [DecidableEq ε] [DecidableEq α] : DecidableEq (Except ε α) := fun x y =>
  match x, y with
  | .ok a, .ok b =>
    if h : a = b then .isTrue (by rw [h]) else .isFalse (fun hh => h (Except.ok.inj hh))
  | .error e, .error e2 =>
    if h : e = e2 then .isTrue (by rw [h]) else .isFalse (fun hh => h (Except.error.inj hh))
  | .ok _, .error _ => .isFalse (fun hh => Except.noConfusion hh)
  | .error _, .ok _ => .isFalse (fun hh => Except.noConfusion hh)

/-- Model of `enum_indents.remove(x)`: remove the first occurrence of
`x`, raising `ValueError` when `x` does not occur. -/
def removeE (x : Int) : List Int → Except ConvError (List Int)
  | [] => .error ConvError.valueNotInList
  | y :: rest =>
    if y = x then .ok rest
    else
      match removeE x rest with
      | .ok rest2 => .ok (y :: rest2)
      | .error e => .error e

/-- Model of the environment-closing loop (source lines 77-86), on the
top-first stack: while the top frame's open indent is `≥ indent`, emit
its closing text, pop it, and if it is a list environment remove
`openIndent + indent_size` from `enum_indents`; stop at the first frame
with open indent `< indent`.  Returns the emitted text, the remaining
stack and the remaining item indents. -/
def closeEnvs (indent : Nat) (size : Int) :
    List (Nat × String) → List Int → Except ConvError (List Char × List (Nat × String) × List Int)
  | [], enums => .ok ([], [], enums)
  | (ind, env) :: rest, enums =>
    if indent ≤ ind then
      match (if isListEnv env then removeE ((ind : Int) + size) enums else .ok enums) with
      | .error e => .error e
      | .ok enums1 =>
        match closeEnvs indent size rest enums1 with
        | .error e => .error e
        | .ok (t, kept, enums2) => .ok (endTag env ++ t, kept, enums2)
    else .ok ([], (ind, env) :: rest, enums)

/-- Test `re.search(r"^#", line) is not None`. -/
def startsHash : List Char → Bool
  | '#' :: _ => true
  | _ => false

/-- Line Preprocessor: indentation/bullet stripping (line 57), the
ignored-property blanking (lines 60-61) and the `{{...}}` directive
stripping (line 64), producing the cleaned text of the line. -/
def cleanLine (cfg : Config) (raw : String) : List Char :=
  let line0 := stripBullet (dropIndent raw.data)
  let line1 := if ignoredCheck cfg.ignoreProps line0 then [] else line0
  stripDirective line1

/-- Inline Renderer, non-equation path (source lines 111-119): emphasis,
bold, highlight, inline `$$` → `$`, Roam links, inline links, in this
order. -/
def inlineSubs (l : List Char) : List Char :=
  let m1 := replace_markup_via l '_' '_' femph
  let m2 := replace_markup_via m1 '*' '*' fbold
  let m3 := replace_markup_via m2 '^' '^' fhl
  let m4 := replaceDD m3
  let m5 := subCit m4
  subHref m5

/-- Inline Renderer dispatch (source lines 106-122): an equation line is
replaced by an `equation*` block and skips every other substitution and
the item marking; otherwise the inline substitutions run and the line is
prefixed with `\item ` exactly when its indent is in `enum_indents`. -/
def renderInline (enums : List Int) (indent : Nat) (l : List Char) : List Char :=
  match matchEq l with
  | some content =>
    "\\begin\x7bequation*\x7d\n".data ++ content ++ "\n\\end\x7bequation*\x7d".data
  | none =>
    let s := inlineSubs l
    if (indent : Int) ∈ enums then "\\item ".data ++ s else s

/-- Structure Tracker step on the already-preprocessed line (source
lines 67-124), in the exact statement order of the source: heading
check, paragraph-indent establishment, environment closing, the
paragraph-break comparison `indent <= par_indent` (which raises
`TypeError` when `par_indent` is `None`, i.e. on every heading line),
heading substitution, environment opening, inline rendering, assembly. -/
def processCore (cfg : Config) (st : ConvState) (indent : Nat) (line2 : List Char) :
    Except ConvError (ConvState × List Char) :=
  let isSec := startsHash line2
  let sectionIndent1 := if isSec then some indent else st.sectionIndent
  let parIndent1 :=
    if isSec then none
    else match st.parIndent with
      | none => some indent
      | some p => some p
  match closeEnvs indent cfg.indentSize st.environments st.enumIndents with
  | .error e => .error e
  | .ok (closeText, envs1, enums1) =>
    match parIndent1 with
    | none => .error ConvError.compareIntNone
    | some p =>
      let addText := if indent ≤ p then closeText ++ ['\n'] else closeText
      let parIndent2 := if indent ≤ p then some indent else some p
      let line3 := applyHeading line2
      let envs2 := match envBegin line3 with
        | some env => (indent, env) :: envs1
        | none => envs1
      let enums2 := match envBegin line3 with
        | some env =>
          if isListEnv env then enums1 ++ [(indent : Int) + cfg.indentSize] else enums1
        | none => enums1
      let line4 := renderInline enums2 indent line3
      .ok (⟨sectionIndent1, parIndent2, envs2, enums2⟩, addText ++ line4)

/-- One iteration of the `for line in infile` loop: preprocess the raw
line, then run the Structure Tracker and Inline Renderer. -/
def processLine (cfg : Config) (st : ConvState) (raw : String) :
    Except ConvError (ConvState × List Char) :=
  processCore cfg st (lineIndent raw) (cleanLine cfg raw)

/-- The whole loop body over the input lines; `outfile.write(line + "\n")`
appends one newline per processed line. -/
def convertLines (cfg : Config) : ConvState → List String → Except ConvError (ConvState × List Char)
  | st, [] => .ok (st, [])
  | st, raw :: rest =>
    match processLine cfg st raw with
    | .error e => .error e
    | .ok (st1, out) =>
      match convertLines cfg st1 rest with
      | .error e => .error e
      | .ok (st2, tailTxt) => .ok (st2, out ++ '\n' :: tailTxt)

/-- Default preamble of `main`. -/
def defaultPreamble : String :=
  "\\documentclass[12pt]\x7barticle\x7d\n\\usepackage\x7bserina\x7d\n"

/-- Model of `convert_to_tex`: preamble, `\begin{document}`, the
processed lines, forced closes for any still-open environments (joined
with `"\n"`, top-first), and the final `\n\end{document}`.  Input lines
carry no trailing newline; the per-line write re-adds one. -/
def convert_to_tex (cfg : Config) (preamble : String) (lines : List String) :
    Except ConvError (List Char) :=
  match convertLines cfg initState lines with
  | .error e => .error e
  | .ok (stF, body) =>
    .ok (preamble.data ++ "\\begin\x7bdocument\x7d".data ++ body ++
      (if stF.environments = [] then []
       else (String.intercalate "\n"
         (stF.environments.map (fun f => "\\end\x7b" ++ f.2 ++ "\x7d\n"))).data) ++
      "\n\\end\x7bdocument\x7d".data)

/-- The stack openIndents are non-decreasing from bottom to top (our
list is top-first, so each element dominates the next). -/
def envMonoB : List (Nat × String) → Bool
  | [] => true
  | [_] => true
  | f :: g :: rest => decide (g.1 ≤ f.1) && envMonoB (g :: rest)

/-- The stack openIndents are strictly increasing from bottom to top. -/
def envStrictB : List (Nat × String) → Bool
  | [] => true
  | [_] => true
  | f :: g :: rest => decide (g.1 < f.1) && envStrictB (g :: rest)

/-- Item indents determined by the currently open list frames: one entry
`openIndent + size` per open `itemize`/`enumerate` frame, in the order
the frames were opened (bottom-first, i.e. the reverse of our stack). -/
def enumsOf (size : Int) (envs : List (Nat × String)) : List Int :=
  ((envs.filter (fun f => isListEnv f.2)).map (fun f => (f.1 : Int) + size)).reverse

/-- Reachability invariant of the tracker state: the stack is strictly
increasing in openIndent bottom-to-top, and `enum_indents` is exactly
the item-indent family of the open list frames. -/
abbrev TrackerInv (size : Int) (st : ConvState) : Prop :=
  envStrictB st.environments = true ∧ st.enumIndents = enumsOf size st.environments

/-- A raw line consisting of `n` spaces and nothing else. -/
def spacesOf (n : Nat) : String := String.mk (List.replicate n ' ')

/-- The raw line is blanked by the ignored-property filter. -/
def isIgnored (cfg : Config) (raw : String) : Bool :=
  ignoredCheck cfg.ignoreProps (stripBullet (dropIndent raw.data))

/-! ## Helper lemmas -/

/-- Heading lines make `processCore` raise: the heading check sets the
paragraph indent to `none`, and the later comparison `indent <= par_indent`
then fails (after the closing loop, which can itself raise). -/
theorem processCore_heading_error (cfg : Config) (st : ConvState) (indent : Nat)
    (line2 : List Char) (h : startsHash line2 = true) :
    ∃ e, processCore cfg st indent line2 = Except.error e := by
  unfold processCore
  rcases hc : closeEnvs indent cfg.indentSize st.environments st.enumIndents with e | v
  · exact ⟨e, by simp [h, hc]⟩
  · exact ⟨ConvError.compareIntNone, by simp [h, hc]⟩

/-! ## Claim C1 -/

/-- C1: the claim says converting `"# Title\nsome text\n"` yields
`\section{Title}` directly followed by `some text`.  The code instead
raises `TypeError` while processing the heading line: the heading sets
`par_indent = None` and the unconditional comparison
`indent <= par_indent` then compares `int` with `None`.  This theorem
evaluates the embedded converter at that exact input. -/
theorem claim_C1_scenario1_raises :
    convert_to_tex defaultConfig defaultPreamble ["# Title", "some text"] =
      Except.error ConvError.compareIntNone := by decide

/-! ## Claim C2 -/

/-- C2: the claim says no input line ever makes the conversion raise.
In fact every line whose cleaned text starts with `#` (any heading line)
raises: the heading check clears `par_indent` to `None` and the
paragraph-break comparison `indent <= par_indent` is executed
unconditionally, a `TypeError` in Python 3.  This holds from every
tracker state and for every configuration. -/
theorem claim_C2_heading_always_raises (cfg : Config) (st : ConvState) (raw : String)
    (h : startsHash (cleanLine cfg raw) = true) :
    ∃ e, processLine cfg st raw = Except.error e :=
  processCore_heading_error cfg st (lineIndent raw) (cleanLine cfg raw) h

/-- Witness for C2 at the concrete heading line `"# Title"`. -/
theorem claim_C2_witness :
    startsHash (cleanLine defaultConfig "# Title") = true ∧
    ∃ e, processLine defaultConfig initState "# Title" = Except.error e :=
  ⟨by decide, claim_C2_heading_always_raises defaultConfig initState "# Title" (by decide)⟩

/-! ## Claim C3 -/

/-- C3: the claim says `[[Smith99]]` becomes `\cite{Smith99}` and
`[[some phrase]]` becomes `some phrase`.  The second half holds, but a
matching key is replaced by the literal text `\cite{link_text}` (the
source returns the non-interpolated string `"\\cite{link_text}"`), not
by a citation of the key. -/
theorem claim_C3_citation_literal :
    subCit "[[Smith99]]".data = "\\cite\x7blink_text\x7d".data ∧
    subCit "[[Smith99]]".data ≠ "\\cite\x7bSmith99\x7d".data ∧
    subCit "[[some phrase]]".data = "some phrase".data := by decide

/-! ## Claim C4 -/

/-- C4 counterexample: at document start (`par_indent = None`) the very
first content line both establishes the baseline and emits a paragraph
break: the output line is prefixed by the blank-line character, contrary
to the claim that the establishing line never triggers a break. -/
theorem claim_C4_counterexample :
    initState.parIndent = none ∧
    processLine defaultConfig initState "some text" =
      Except.ok (⟨none, some 0, [], []⟩, '\n' :: "some text".data) := by decide

/-- C4 amended: when the paragraph baseline is undefined and a
non-heading line arrives, the baseline is set to that line's indent AND
a paragraph break is emitted for the establishing line as well, because
the comparison `indent <= par_indent` runs after the establishment and
trivially succeeds.  (A baseline can be undefined after a heading only
in the sense that the heading line itself raises, so the reachable case
is document start.) -/
theorem claim_C4_establishing_line_breaks (cfg : Config) (st : ConvState) (raw : String)
    (st2 : ConvState) (out : List Char)
    (hpar : st.parIndent = none)
    (hsec : startsHash (cleanLine cfg raw) = false)
    (hok : processLine cfg st raw = Except.ok (st2, out)) :
    st2.parIndent = some (lineIndent raw) ∧
    ∃ t kept enums1,
      closeEnvs (lineIndent raw) cfg.indentSize st.environments st.enumIndents =
        Except.ok (t, kept, enums1) ∧
      ∃ r, out = t ++ '\n' :: r := by
  unfold processLine processCore at hok
  rcases hc : closeEnvs (lineIndent raw) cfg.indentSize st.environments st.enumIndents
    with e | ⟨t, kept, enums1⟩
  · simp [hsec, hpar, hc] at hok
  · simp only [hsec, hpar, hc, Bool.false_eq_true, if_false, if_true, le_refl] at hok
    rw [Except.ok.injEq] at hok
    rw [Prod.mk.injEq] at hok
    obtain ⟨hst, hout⟩ := hok
    subst hst
    subst hout
    refine ⟨rfl, ?_⟩
    refine ⟨t, kept, enums1, ?_, ?_⟩
    · rfl
    rw [List.append_assoc]
    exact ⟨_, rfl⟩

/-- Witness for C4 at the concrete first line `"hello"` of a document. -/
theorem claim_C4_witness :
    initState.parIndent = none ∧
    startsHash (cleanLine defaultConfig "hello") = false ∧
    ((⟨none, some 0, [], []⟩ : ConvState).parIndent = some (lineIndent "hello") ∧
     ∃ t kept enums1,
       closeEnvs (lineIndent "hello") defaultConfig.indentSize initState.environments
           initState.enumIndents = Except.ok (t, kept, enums1) ∧
       ∃ r, '\n' :: "hello".data = t ++ '\n' :: r) :=
  ⟨rfl, by decide,
    claim_C4_establishing_line_breaks defaultConfig initState "hello"
      ⟨none, some 0, [], []⟩ ('\n' :: "hello".data) rfl (by decide) (by decide)⟩

/-! ## Claim C6 counterexample -/

/-- C6 counterexample: with an `itemize` frame open at indent 0 and
indent size 4, the claim says every line at indent 4 is item-marked.
The equation line `$$x$$` at indent 4 is not: the equation branch skips
item marking entirely. -/
theorem claim_C6_counterexample :
    processLine defaultConfig ⟨none, some 0, [(0, "itemize")], [4]⟩ "    $$x$$" =
      Except.ok (⟨none, some 0, [(0, "itemize")], [4]⟩,
        "\\begin\x7bequation*\x7d\nx\n\\end\x7bequation*\x7d".data) ∧
    ((4 : Nat) : Int) = (0 : Int) + defaultConfig.indentSize ∧
    ¬ ("\\item ".data <+:
        "\\begin\x7bequation*\x7d\nx\n\\end\x7bequation*\x7d".data) := by decide

/-! ## Claim C7 counterexample -/

/-- C7 counterexample: the line `$$a$b$$` is of the shape
`$$<content>$$` with no other `$$` inside (`content = a$b`), yet the
code does not produce an equation block: the regex content class
`[^$]*` rejects the single `$`, so the line falls through to the inline
rules and renders as `$a$b$`. -/
theorem claim_C7_counterexample :
    "$$a$b$$".data = "$$".data ++ "a$b".data ++ "$$".data ∧
    ¬ ("$$".data <:+: "a$b".data) ∧
    renderInline [] 0 "$$a$b$$".data = "$a$b$".data ∧
    renderInline [] 0 "$$a$b$$".data ≠
      "\\begin\x7bequation*\x7d\n".data ++ "a$b".data ++ "\n\\end\x7bequation*\x7d".data := by
  decide

/-! ## Claim C8 counterexample -/

/-- C8 counterexample: the line `**a***[[*y]]` contains an even number
(two) of `**` delimiters, yet the rendered output of the line still
contains `**`: the Roam-link substitution drops the `[[ ]]` brackets of
a non-citation link and thereby rejoins two `*` characters. -/
theorem claim_C8_counterexample :
    countD '*' '*' "**a***[[*y]]".data = 2 ∧
    renderInline [] 0 "**a***[[*y]]".data = "\\textbf\x7ba\x7d**y".data ∧
    ("**".data <:+: renderInline [] 0 "**a***[[*y]]".data) := by decide

/-! ## Claim C9 counterexample -/

/-- C9 counterexample: a `tags::` line is claimed to render as an empty
line.  When its indent is an active item indent it renders as a bare
item marker `\item ` instead: the blanking happens before the item
marking, which still fires. -/
theorem claim_C9_counterexample :
    isIgnored defaultConfig "    tags:: x" = true ∧
    processLine defaultConfig ⟨none, some 0, [(0, "itemize")], [4]⟩ "    tags:: x" =
      Except.ok (⟨none, some 0, [(0, "itemize")], [4]⟩, "\\item ".data) ∧
    "\\item ".data ≠ ([] : List Char) := by decide

/-! ## Delimiter-occurrence machinery for the markup claims -/

/-- An occurrence of the two-character pattern `[a, b]` inside an append
lies in the left part, in the right part, or spans the boundary. -/
theorem infix_pair_append {a b : Char} :
    ∀ (x y : List Char), [a, b] <:+: x ++ y →
      [a, b] <:+: x ∨ [a, b] <:+: y ∨ (x.getLast? = some a ∧ y.head? = some b)
  | [], _, h => Or.inr (Or.inl h)
  | [c], y, h => by
    rw [List.cons_append, List.nil_append, List.infix_cons_iff] at h
    rcases h with h | h
    · rcases h with ⟨t, ht⟩
      rw [List.cons_append, List.cons_append, List.nil_append] at ht
      injection ht with h1 h2
      subst h1
      exact Or.inr (Or.inr ⟨rfl, by rw [← h2]; rfl⟩)
    · exact Or.inr (Or.inl h)
  | c :: c2 :: xs, y, h => by
    rw [List.cons_append, List.infix_cons_iff] at h
    rcases h with h | h
    · rcases h with ⟨t, ht⟩
      rw [List.cons_append, List.cons_append, List.nil_append, List.cons_append] at ht
      injection ht with h1 h2
      injection h2 with h3 _
      subst h1
      subst h3
      exact Or.inl ⟨[], xs, rfl⟩
    · rcases infix_pair_append (c2 :: xs) y h with h1 | h1 | h1
      · exact Or.inl (List.infix_cons h1)
      · exact Or.inr (Or.inl h1)
      · exact Or.inr (Or.inr ⟨by rw [List.getLast?_cons_cons]; exact h1.1, h1.2⟩)

/-- `splitOn2` always produces at least one chunk. -/
theorem splitOn2_ne_nil (a b : Char) :
    ∀ (l : List Char), splitOn2 a b l ≠ []
  | [] => by simp [splitOn2]
  | [c] => by simp [splitOn2]
  | c :: c2 :: rest => by
    unfold splitOn2
    split
    · exact List.cons_ne_nil _ _
    · split <;> exact List.cons_ne_nil _ _

/-- The first chunk of splitting a nonempty list is empty or starts with
the first character of the list. -/
theorem splitOn2_head_shape (a b : Char) (c : Char) (rest : List Char) :
    (∃ chs, splitOn2 a b (c :: rest) = [] :: chs) ∨
    (∃ t chs, splitOn2 a b (c :: rest) = (c :: t) :: chs) := by
  cases rest with
  | nil => exact Or.inr ⟨[], [], rfl⟩
  | cons c2 rest2 =>
    unfold splitOn2
    split
    · exact Or.inl ⟨_, rfl⟩
    · rcases hs : splitOn2 a b (c2 :: rest2) with _ | ⟨chunk, chunks⟩
      · exact absurd hs (splitOn2_ne_nil a b _)
      · exact Or.inr ⟨chunk, chunks, rfl⟩

/-- No chunk produced by `splitOn2` contains an occurrence of the
delimiter: the split consumes every occurrence. -/
theorem splitOn2_chunks_clean (a b : Char) :
    ∀ (l : List Char), ∀ ch ∈ splitOn2 a b l, ¬ [a, b] <:+: ch
  | [], ch, hch => by
    simp only [splitOn2, List.mem_singleton] at hch
    subst hch
    simp
  | [c], ch, hch => by
    simp only [splitOn2, List.mem_singleton] at hch
    subst hch
    intro h
    have := h.length_le
    simp at this
  | c :: c2 :: rest, ch, hch => by
    unfold splitOn2 at hch
    by_cases hab : c = a ∧ c2 = b
    · rw [if_pos hab] at hch
      rcases List.mem_cons.mp hch with h | h
      · subst h; simp
      · exact splitOn2_chunks_clean a b rest ch h
    · rw [if_neg hab] at hch
      rcases hs : splitOn2 a b (c2 :: rest) with _ | ⟨chunk, chunks⟩
      · exact absurd hs (splitOn2_ne_nil a b _)
      · rw [hs] at hch
        rcases List.mem_cons.mp hch with h | h
        · subst h
          intro hinf
          rw [List.infix_cons_iff] at hinf
          rcases hinf with hpre | hinf
          · rcases hpre with ⟨t, ht⟩
            rw [List.cons_append, List.cons_append, List.nil_append] at ht
            injection ht with h1 h2
            rcases splitOn2_head_shape a b c2 rest with ⟨chs, hsh⟩ | ⟨t2, chs, hsh⟩
            · rw [hs] at hsh
              injection hsh with hh _
              rw [hh] at h2
              exact List.cons_ne_nil _ _ h2
            · rw [hs] at hsh
              injection hsh with hh _
              rw [hh] at h2
              injection h2 with h3 _
              exact hab ⟨h1.symm, h3.symm⟩
          · exact splitOn2_chunks_clean a b (c2 :: rest) chunk
              (by rw [hs]; exact List.mem_cons_self _ _) hinf
        · exact splitOn2_chunks_clean a b (c2 :: rest) ch
            (by rw [hs]; exact List.mem_cons.mpr (Or.inr h))

/-- Chunk count is one more than the delimiter-occurrence count. -/
theorem splitOn2_length (a b : Char) :
    ∀ (l : List Char), (splitOn2 a b l).length = countD a b l + 1
  | [] => rfl
  | [_] => rfl
  | c :: c2 :: rest => by
    unfold splitOn2 countD
    by_cases hab : c = a ∧ c2 = b
    · rw [if_pos hab, if_pos hab]
      simp [splitOn2_length a b rest]
    · rw [if_neg hab, if_neg hab]
      rcases hs : splitOn2 a b (c2 :: rest) with _ | ⟨chunk, chunks⟩
      · exact absurd hs (splitOn2_ne_nil a b _)
      · have hlen := splitOn2_length a b (c2 :: rest)
        rw [hs] at hlen
        simp only [List.length_cons] at hlen ⊢
        omega

/-- Joining the odd-wrapped chunks with the empty string equals the
pair-recursive rendering. -/
theorem flatten_wrapOdd_eq_pairJoin (w : List Char → List Char) :
    ∀ (chunks : List (List Char)), (wrapOdd w chunks).flatten = pairJoin w chunks
  | [] => rfl
  | [c] => by simp [wrapOdd, pairJoin]
  | c :: c2 :: rest => by
    simp [wrapOdd, pairJoin, flatten_wrapOdd_eq_pairJoin w rest, List.append_assoc]

/-- On an even-length chunk list, appending one empty chunk does not
change the pair-recursive rendering: the final chunk of an odd-count
split is wrapped exactly as if a closing delimiter stood at the end. -/
theorem pairJoin_append_empty (w : List Char → List Char) :
    ∀ (chunks : List (List Char)), chunks.length % 2 = 0 →
      pairJoin w chunks = pairJoin w (chunks ++ [[]])
  | [], _ => rfl
  | [_], h => by simp at h
  | c :: c2 :: rest, h => by
    simp only [List.length_cons] at h
    simp only [pairJoin, List.cons_append]
    rw [pairJoin_append_empty w rest (by omega)]
    rfl

/-- A wrapper of the form `pre ++ t ++ "}"` introduces no occurrence of
the delimiter `[a, b]` when neither part contains one, `pre` does not
end in `a`, and `b` is not `}`. -/
theorem wrap_clean_of (a b : Char) (pre t : List Char)
    (hpre : ¬ [a, b] <:+: pre) (ht : ¬ [a, b] <:+: t)
    (hpl : pre.getLast? ≠ some a) (hb2 : b ≠ '\x7d') :
    ¬ [a, b] <:+: (pre ++ t ++ ['\x7d']) := by
  intro h
  rcases infix_pair_append (pre ++ t) ['\x7d'] h with h1 | h1 | h1
  · rcases infix_pair_append pre t h1 with h2 | h2 | h2
    · exact hpre h2
    · exact ht h2
    · exact hpl h2.1
  · have := h1.length_le
    simp at this
  · exact hb2 (Option.some.inj h1.2).symm

/-- Flattening odd-wrapped clean chunks yields no delimiter occurrence,
provided the wrapper output is clean, starts with `\` and ends with `}`,
and the delimiter characters are not `}` and `\`. -/
theorem noInfix_flatten_wrapOdd (a b : Char) (w : List Char → List Char)
    (hw : ∀ t, ¬ [a, b] <:+: t → ¬ [a, b] <:+: w t)
    (hhead : ∀ t, (w t).head? = some '\\')
    (hlast : ∀ t, (w t).getLast? = some '\x7d')
    (ha : a ≠ '\x7d') (hb : b ≠ '\\') :
    ∀ (chunks : List (List Char)), (∀ ch ∈ chunks, ¬ [a, b] <:+: ch) →
      ¬ [a, b] <:+: (wrapOdd w chunks).flatten
  | [], _, h => by simp [wrapOdd] at h
  | [ch], hch, h => by
    simp only [wrapOdd, List.flatten_cons, List.flatten_nil, List.append_nil] at h
    exact hch ch (List.mem_singleton.mpr rfl) h
  | ch :: ch2 :: rest, hch, h => by
    simp only [wrapOdd, List.flatten_cons] at h
    rcases infix_pair_append ch (w ch2 ++ (wrapOdd w rest).flatten) h with h1 | h1 | h1
    · exact hch ch (List.mem_cons_self _ _) h1
    · rcases infix_pair_append (w ch2) ((wrapOdd w rest).flatten) h1 with h2 | h2 | h2
      · exact hw ch2 (hch ch2 (List.mem_cons.mpr (Or.inr (List.mem_cons_self _ _)))) h2
      · exact noInfix_flatten_wrapOdd a b w hw hhead hlast ha hb rest
          (fun x hx => hch x (List.mem_cons.mpr (Or.inr (List.mem_cons.mpr (Or.inr hx))))) h2
      · exact ha (Option.some.inj ((hlast ch2).symm.trans h2.1)).symm
    · have hne : ∃ ws, w ch2 = '\\' :: ws := by
        rcases hwc : w ch2 with _ | ⟨d, ds⟩
        · have := hhead ch2
          rw [hwc] at this
          simp at this
        · have := hhead ch2
          rw [hwc] at this
          simp only [List.head?_cons, Option.some.injEq] at this
          exact ⟨ds, by rw [this]⟩
      rcases hne with ⟨ws, hws⟩
      rw [hws, List.cons_append, List.head?_cons] at h1
      exact hb (Option.some.inj h1.2).symm

/-- The emphasis wrapper preserves `__`-cleanliness. -/
theorem femph_clean (t : List Char) (ht : ¬ ['_', '_'] <:+: t) :
    ¬ ['_', '_'] <:+: femph t :=
  wrap_clean_of '_' '_' "\\emph\x7b".data t (by decide) ht (by decide) (by decide)

/-- The bold wrapper preserves `**`-cleanliness. -/
theorem fbold_clean (t : List Char) (ht : ¬ ['*', '*'] <:+: t) :
    ¬ ['*', '*'] <:+: fbold t :=
  wrap_clean_of '*' '*' "\\textbf\x7b".data t (by decide) ht (by decide) (by decide)

/-- The highlight wrapper preserves `^^`-cleanliness. -/
theorem fhl_clean (t : List Char) (ht : ¬ ['^', '^'] <:+: t) :
    ¬ ['^', '^'] <:+: fhl t :=
  wrap_clean_of '^' '^' "\\hl\x7b".data t (by decide) ht (by decide) (by decide)

/-- No `__` remains after the emphasis pass. -/
theorem replace_emph_clean (text : List Char) :
    ¬ ['_', '_'] <:+: replace_markup_via text '_' '_' femph :=
  noInfix_flatten_wrapOdd '_' '_' femph femph_clean (fun _ => rfl)
    (fun t => List.getLast?_concat _) (by decide) (by decide)
    (splitOn2 '_' '_' text) (splitOn2_chunks_clean '_' '_' text)

/-- No `**` remains after the bold pass. -/
theorem replace_bold_clean (text : List Char) :
    ¬ ['*', '*'] <:+: replace_markup_via text '*' '*' fbold :=
  noInfix_flatten_wrapOdd '*' '*' fbold fbold_clean (fun _ => rfl)
    (fun t => List.getLast?_concat _) (by decide) (by decide)
    (splitOn2 '*' '*' text) (splitOn2_chunks_clean '*' '*' text)

/-- No `^^` remains after the highlight pass. -/
theorem replace_hl_clean (text : List Char) :
    ¬ ['^', '^'] <:+: replace_markup_via text '^' '^' fhl :=
  noInfix_flatten_wrapOdd '^' '^' fhl fhl_clean (fun _ => rfl)
    (fun t => List.getLast?_concat _) (by decide) (by decide)
    (splitOn2 '^' '^' text) (splitOn2_chunks_clean '^' '^' text)

/-! ## Claim C8 (amended) -/

/-- C8 amended: on a line with an even number of occurrences of one of
the markup delimiters, the corresponding substitution pass converts
every delimiter pair into its wrapping command around the enclosed
chunk (`pairJoin` of the split chunks) and leaves no occurrence of the
delimiter in the output of that pass.  (The original claim spoke of the
final rendered line; `claim_C8_counterexample` shows the later
link substitution can re-create delimiter occurrences there.) -/
theorem claim_C8_markup_pass (text : List Char) :
    (countD '_' '_' text % 2 = 0 →
      replace_markup_via text '_' '_' femph = pairJoin femph (splitOn2 '_' '_' text) ∧
      ¬ ['_', '_'] <:+: replace_markup_via text '_' '_' femph) ∧
    (countD '*' '*' text % 2 = 0 →
      replace_markup_via text '*' '*' fbold = pairJoin fbold (splitOn2 '*' '*' text) ∧
      ¬ ['*', '*'] <:+: replace_markup_via text '*' '*' fbold) ∧
    (countD '^' '^' text % 2 = 0 →
      replace_markup_via text '^' '^' fhl = pairJoin fhl (splitOn2 '^' '^' text) ∧
      ¬ ['^', '^'] <:+: replace_markup_via text '^' '^' fhl) :=
  ⟨fun _ => ⟨flatten_wrapOdd_eq_pairJoin femph (splitOn2 '_' '_' text),
      replace_emph_clean text⟩,
   fun _ => ⟨flatten_wrapOdd_eq_pairJoin fbold (splitOn2 '*' '*' text),
      replace_bold_clean text⟩,
   fun _ => ⟨flatten_wrapOdd_eq_pairJoin fhl (splitOn2 '^' '^' text),
      replace_hl_clean text⟩⟩

/-- Witness for C8 on the bold pass of `a**b**c`. -/
theorem claim_C8_witness :
    countD '*' '*' "a**b**c".data % 2 = 0 ∧
    (replace_markup_via "a**b**c".data '*' '*' fbold =
        pairJoin fbold (splitOn2 '*' '*' "a**b**c".data) ∧
      ¬ ['*', '*'] <:+: replace_markup_via "a**b**c".data '*' '*' fbold) :=
  ⟨by decide, (claim_C8_markup_pass "a**b**c".data).2.1 (by decide)⟩

/-! ## Claim C10 -/

/-- C10: with an odd number `2k+1` of delimiter occurrences the pass is
still deterministic: the split has `2k+2` chunks, the result is the
pair-recursive rendering of the chunk list extended by one empty chunk
(so the text after the last, unmatched delimiter is wrapped exactly as
if a closing delimiter stood at the end of the line), and no delimiter
occurrence remains in the output. -/
theorem claim_C10_markup_odd (text : List Char) :
    (countD '_' '_' text % 2 = 1 →
      (splitOn2 '_' '_' text).length = countD '_' '_' text + 1 ∧
      replace_markup_via text '_' '_' femph =
        pairJoin femph (splitOn2 '_' '_' text ++ [[]]) ∧
      ¬ ['_', '_'] <:+: replace_markup_via text '_' '_' femph) ∧
    (countD '*' '*' text % 2 = 1 →
      (splitOn2 '*' '*' text).length = countD '*' '*' text + 1 ∧
      replace_markup_via text '*' '*' fbold =
        pairJoin fbold (splitOn2 '*' '*' text ++ [[]]) ∧
      ¬ ['*', '*'] <:+: replace_markup_via text '*' '*' fbold) ∧
    (countD '^' '^' text % 2 = 1 →
      (splitOn2 '^' '^' text).length = countD '^' '^' text + 1 ∧
      replace_markup_via text '^' '^' fhl =
        pairJoin fhl (splitOn2 '^' '^' text ++ [[]]) ∧
      ¬ ['^', '^'] <:+: replace_markup_via text '^' '^' fhl) := by
  refine ⟨fun h => ⟨splitOn2_length '_' '_' text, ?_, replace_emph_clean text⟩,
          fun h => ⟨splitOn2_length '*' '*' text, ?_, replace_bold_clean text⟩,
          fun h => ⟨splitOn2_length '^' '^' text, ?_, replace_hl_clean text⟩⟩
  · rw [replace_markup_via, flatten_wrapOdd_eq_pairJoin]
    exact pairJoin_append_empty femph (splitOn2 '_' '_' text)
      (by rw [splitOn2_length '_' '_' text]; omega)
  · rw [replace_markup_via, flatten_wrapOdd_eq_pairJoin]
    exact pairJoin_append_empty fbold (splitOn2 '*' '*' text)
      (by rw [splitOn2_length '*' '*' text]; omega)
  · rw [replace_markup_via, flatten_wrapOdd_eq_pairJoin]
    exact pairJoin_append_empty fhl (splitOn2 '^' '^' text)
      (by rw [splitOn2_length '^' '^' text]; omega)

/-- Witness for C10 on the bold pass of `a**b*` (one `**` occurrence;
the tail `b*` is wrapped as if closed at the end of the line). -/
theorem claim_C10_witness :
    countD '*' '*' "a**b*".data % 2 = 1 ∧
    ((splitOn2 '*' '*' "a**b*".data).length = countD '*' '*' "a**b*".data + 1 ∧
     replace_markup_via "a**b*".data '*' '*' fbold =
       pairJoin fbold (splitOn2 '*' '*' "a**b*".data ++ [[]]) ∧
     ¬ ['*', '*'] <:+: replace_markup_via "a**b*".data '*' '*' fbold) :=
  ⟨by decide, (claim_C10_markup_odd "a**b*".data).2.1 (by decide)⟩

/-! ## Structure-tracker machinery -/

/-- Characterization of the closing loop: on success the kept stack is
the maximal suffix below the first frame with `openIndent < indent`
(`dropWhile`), and the emitted text is the concatenated closing tags of
the removed top-down prefix (`takeWhile`). -/
theorem closeEnvs_spec (i : Nat) (size : Int) :
    ∀ (envs : List (Nat × String)) (enums : List Int) (t : List Char)
      (kept : List (Nat × String)) (enums2 : List Int),
      closeEnvs i size envs enums = Except.ok (t, kept, enums2) →
      kept = envs.dropWhile (fun f => decide (i ≤ f.1)) ∧
      t = ((envs.takeWhile (fun f => decide (i ≤ f.1))).map (fun f => endTag f.2)).flatten
  | [], enums, t, kept, enums2, h => by
    simp only [closeEnvs, Except.ok.injEq, Prod.mk.injEq] at h
    obtain ⟨ht, hk, _⟩ := h
    simp [← ht, ← hk]
  | (ind, env) :: rest, enums, t, kept, enums2, h => by
    unfold closeEnvs at h
    by_cases hle : i ≤ ind
    · rw [if_pos hle] at h
      rcases hrm : (if isListEnv env then removeE ((ind : Int) + size) enums
          else Except.ok enums) with e | enums1
      · rw [hrm] at h; exact absurd h (by simp)
      · rw [hrm] at h
        dsimp only at h
        rcases hcl : closeEnvs i size rest enums1 with e | ⟨t1, kept1, enums21⟩
        · rw [hcl] at h; exact absurd h (by simp)
        · rw [hcl] at h
          simp only [Except.ok.injEq, Prod.mk.injEq] at h
          obtain ⟨ht, hk, _⟩ := h
          obtain ⟨ihk, iht⟩ := closeEnvs_spec i size rest enums1 t1 kept1 enums21 hcl
          constructor
          · rw [← hk, ihk, List.dropWhile_cons]
            simp [hle]
          · rw [← ht, iht, List.takeWhile_cons]
            simp [hle]
    · rw [if_neg hle] at h
      simp only [Except.ok.injEq, Prod.mk.injEq] at h
      obtain ⟨ht, hk, _⟩ := h
      constructor
      · rw [← hk, List.dropWhile_cons]
        simp [hle]
      · rw [← ht, List.takeWhile_cons]
        simp [hle]

/-- In a non-decreasing stack every later (lower) frame is dominated by
the head. -/
theorem envMonoB_le_head :
    ∀ (f : Nat × String) (rest : List (Nat × String)),
      envMonoB (f :: rest) = true → ∀ g ∈ rest, g.1 ≤ f.1
  | _, [], _, g, hg => absurd hg (List.not_mem_nil g)
  | f, g0 :: rest, h, g, hg => by
    simp only [envMonoB, Bool.and_eq_true, decide_eq_true_eq] at h
    rcases List.mem_cons.mp hg with rfl | hg2
    · exact h.1
    · exact le_trans (envMonoB_le_head g0 rest h.2 g hg2) h.1

/-- Tail of a non-decreasing stack is non-decreasing. -/
theorem envMonoB_tail (f : Nat × String) (rest : List (Nat × String))
    (h : envMonoB (f :: rest) = true) : envMonoB rest = true := by
  cases rest with
  | nil => rfl
  | cons g gs =>
    simp only [envMonoB, Bool.and_eq_true] at h
    exact h.2

/-- `dropWhile` of a non-decreasing stack is non-decreasing. -/
theorem envMonoB_dropWhile (p : Nat × String → Bool) :
    ∀ (l : List (Nat × String)), envMonoB l = true →
      envMonoB (l.dropWhile p) = true
  | [], _ => rfl
  | f :: rest, h => by
    rw [List.dropWhile_cons]
    split
    · exact envMonoB_dropWhile p rest (envMonoB_tail f rest h)
    · exact h

/-- Head of the kept stack after a close is strictly below the indent. -/
theorem dropWhile_head_lt (i : Nat) :
    ∀ (l : List (Nat × String)) (g : Nat × String) (gs : List (Nat × String)),
      l.dropWhile (fun f => decide (i ≤ f.1)) = g :: gs → g.1 < i
  | [], g, gs, h => by simp at h
  | f :: rest, g, gs, h => by
    rw [List.dropWhile_cons] at h
    split at h
    · exact dropWhile_head_lt i rest g gs h
    · next hpf =>
      injection h with h1 _
      subst h1
      simp only [decide_eq_true_eq] at hpf
      omega

/-- Pushing a frame at the incoming indent on top of the kept stack
keeps the stack non-decreasing. -/
theorem envMonoB_cons_of (i : Nat) (env : String) (kept : List (Nat × String))
    (hk : envMonoB kept = true) (hh : ∀ g gs, kept = g :: gs → g.1 ≤ i) :
    envMonoB ((i, env) :: kept) = true := by
  cases kept with
  | nil => rfl
  | cons g gs =>
    simp only [envMonoB, Bool.and_eq_true, decide_eq_true_eq]
    exact ⟨hh g gs rfl, hk⟩

/-- Under monotonicity, the frames removed by a close (`takeWhile`) are
exactly all frames with `indent ≤ openIndent` (`filter`): a frame is
closed precisely when the incoming indent is at or below it. -/
theorem takeWhile_eq_filter_mono (i : Nat) :
    ∀ (l : List (Nat × String)), envMonoB l = true →
      l.takeWhile (fun f => decide (i ≤ f.1)) = l.filter (fun f => decide (i ≤ f.1))
  | [], _ => rfl
  | f :: rest, h => by
    rw [List.takeWhile_cons, List.filter_cons]
    by_cases hle : i ≤ f.1
    · rw [if_pos (decide_eq_true hle), if_pos (decide_eq_true hle)]
      rw [takeWhile_eq_filter_mono i rest (envMonoB_tail f rest h)]
    · have hnd : ¬ (decide (i ≤ f.1) = true) := fun hc => hle (of_decide_eq_true hc)
      rw [if_neg hnd, if_neg hnd]
      have hall : ∀ g ∈ rest, ¬ (decide (i ≤ g.1) = true) := by
        intro g hg
        have := envMonoB_le_head f rest h g hg
        simp only [decide_eq_true_eq]
        omega
      rw [List.filter_eq_nil_iff.mpr hall]

/-! ## Claim C5 -/

/-- C5: for an incoming line of indent `i`, processed from a stack that
is monotonically non-decreasing in openIndent bottom-to-top, a frame is
closed exactly when `i ≤` its openIndent (`takeWhile = filter`), the
closes are the top-down prefix stopping at the first frame with
openIndent `< i`, the frames below it stay open and untouched
(`dropWhile`), and after the line the stack is again monotonically
non-decreasing.  The stack is stored top-first, so `takeWhile` is the
top-down closed prefix and `dropWhile` the untouched rest. -/
theorem claim_C5_close_discipline (cfg : Config) (st : ConvState) (raw : String)
    (st2 : ConvState) (out : List Char)
    (hmono : envMonoB st.environments = true)
    (hok : processLine cfg st raw = Except.ok (st2, out)) :
    (∃ enums2,
      closeEnvs (lineIndent raw) cfg.indentSize st.environments st.enumIndents =
        Except.ok
          (((st.environments.takeWhile (fun f => decide (lineIndent raw ≤ f.1))).map
              (fun f => endTag f.2)).flatten,
           st.environments.dropWhile (fun f => decide (lineIndent raw ≤ f.1)), enums2)) ∧
    st.environments.takeWhile (fun f => decide (lineIndent raw ≤ f.1)) =
      st.environments.filter (fun f => decide (lineIndent raw ≤ f.1)) ∧
    envMonoB st2.environments = true := by
  unfold processLine processCore at hok
  rcases hc : closeEnvs (lineIndent raw) cfg.indentSize st.environments st.enumIndents
    with e | ⟨t, kept, enums1⟩
  · rw [hc] at hok; exact absurd hok (by simp)
  · obtain ⟨hkept, ht⟩ := closeEnvs_spec (lineIndent raw) cfg.indentSize
      st.environments st.enumIndents t kept enums1 hc
    refine ⟨⟨enums1, by rw [hkept, ht]⟩,
      takeWhile_eq_filter_mono _ _ hmono, ?_⟩
    rw [hc] at hok
    dsimp only at hok
    split at hok
    · exact absurd hok (by simp)
    · rw [Except.ok.injEq, Prod.mk.injEq] at hok
      obtain ⟨hst, _⟩ := hok
      rw [← hst]
      have hkm : envMonoB kept = true := by
        rw [hkept]
        exact envMonoB_dropWhile _ _ hmono
      have hkh : ∀ g gs, kept = g :: gs → g.1 ≤ lineIndent raw := by
        intro g gs hgs
        have := dropWhile_head_lt (lineIndent raw) st.environments g gs (by rw [← hkept, hgs])
        omega
      rcases he : envBegin (applyHeading (cleanLine cfg raw)) with _ | env
      · simpa [he] using hkm
      · simpa [he] using envMonoB_cons_of (lineIndent raw) env kept hkm hkh

/-- Witness for C5: a line at indent 2 under an `itemize` frame opened
at indent 4 closes that frame and leaves the (empty) rest untouched. -/
theorem claim_C5_witness :
    envMonoB ([((4 : Nat), "itemize")] : List (Nat × String)) = true ∧
    processLine defaultConfig ⟨none, some 0, [(4, "itemize")], [8]⟩ "  x" =
      Except.ok (⟨none, some 0, [], []⟩, "\\end\x7bitemize\x7d\n".data ++ "x".data) ∧
    ((∃ enums2,
      closeEnvs (lineIndent "  x") defaultConfig.indentSize
          (ConvState.mk none (some 0) [(4, "itemize")] [8]).environments
          (ConvState.mk none (some 0) [(4, "itemize")] [8]).enumIndents =
        Except.ok
          ((((ConvState.mk none (some 0) [(4, "itemize")] [8]).environments.takeWhile
                (fun f => decide (lineIndent "  x" ≤ f.1))).map
              (fun f => endTag f.2)).flatten,
           (ConvState.mk none (some 0) [(4, "itemize")] [8]).environments.dropWhile
             (fun f => decide (lineIndent "  x" ≤ f.1)), enums2)) ∧
    (ConvState.mk none (some 0) [(4, "itemize")] [8]).environments.takeWhile
        (fun f => decide (lineIndent "  x" ≤ f.1)) =
      (ConvState.mk none (some 0) [(4, "itemize")] [8]).environments.filter
        (fun f => decide (lineIndent "  x" ≤ f.1)) ∧
    envMonoB (ConvState.mk none (some 0) ([] : List (Nat × String)) ([] : List Int)).environments
      = true) :=
  ⟨by decide, by decide,
    claim_C5_close_discipline defaultConfig ⟨none, some 0, [(4, "itemize")], [8]⟩ "  x"
      ⟨none, some 0, [], []⟩ ("\\end\x7bitemize\x7d\n".data ++ "x".data)
      (by decide) (by decide)⟩

/-! ## Tracker invariant: item indents track open list frames -/

/-- Removing a value that sits only at the end of the list returns the
front: Python `remove` finds exactly that occurrence. -/
theorem removeE_append_once (x : Int) :
    ∀ (l : List Int), x ∉ l → removeE x (l ++ [x]) = Except.ok l
  | [], _ => by simp [removeE]
  | y :: rest, hx => by
    have hy : ¬ (y = x) := fun h => hx (h ▸ List.mem_cons_self _ _)
    simp only [List.cons_append, removeE, List.append_eq]
    rw [if_neg hy,
      removeE_append_once x rest (fun h => hx (List.mem_cons.mpr (Or.inr h)))]

/-- Unfolding `enumsOf` over a pushed frame. -/
theorem enumsOf_cons (size : Int) (ind : Nat) (env : String) (rest : List (Nat × String)) :
    enumsOf size ((ind, env) :: rest) =
      if isListEnv env then enumsOf size rest ++ [(ind : Int) + size]
      else enumsOf size rest := by
  unfold enumsOf
  rw [List.filter_cons]
  by_cases h : isListEnv env
  · simp [h]
  · simp [h]

/-- The item indent of a frame above all of `rest` does not occur among
the item indents derived from `rest`. -/
theorem enumsOf_not_mem (size : Int) (ind : Nat) (rest : List (Nat × String))
    (hlt : ∀ g ∈ rest, g.1 < ind) :
    ((ind : Int) + size) ∉ enumsOf size rest := by
  intro hmem
  unfold enumsOf at hmem
  rw [List.mem_reverse] at hmem
  rcases List.mem_map.mp hmem with ⟨f, hf, hfe⟩
  have := hlt f (List.mem_filter.mp hf).1
  omega

/-- Membership in the item-indent family is existence of an open list
frame at the matching indent. -/
theorem mem_enumsOf (size : Int) (v : Int) (envs : List (Nat × String)) :
    v ∈ enumsOf size envs ↔
      ∃ f, f ∈ envs ∧ isListEnv f.2 = true ∧ v = (f.1 : Int) + size := by
  unfold enumsOf
  rw [List.mem_reverse, List.mem_map]
  constructor
  · rintro ⟨f, hf, rfl⟩
    have hm := List.mem_filter.mp hf
    exact ⟨f, hm.1, hm.2, rfl⟩
  · rintro ⟨f, hf, hl, rfl⟩
    exact ⟨f, List.mem_filter.mpr ⟨hf, hl⟩, rfl⟩

/-- In a strictly increasing stack every later (lower) frame is strictly
below the head. -/
theorem envStrictB_lt_head :
    ∀ (f : Nat × String) (rest : List (Nat × String)),
      envStrictB (f :: rest) = true → ∀ g ∈ rest, g.1 < f.1
  | _, [], _, g, hg => absurd hg (List.not_mem_nil g)
  | f, g0 :: rest, h, g, hg => by
    simp only [envStrictB, Bool.and_eq_true, decide_eq_true_eq] at h
    rcases List.mem_cons.mp hg with rfl | hg2
    · exact h.1
    · exact lt_trans (envStrictB_lt_head g0 rest h.2 g hg2) h.1

/-- Tail of a strictly increasing stack is strictly increasing. -/
theorem envStrictB_tail (f : Nat × String) (rest : List (Nat × String))
    (h : envStrictB (f :: rest) = true) : envStrictB rest = true := by
  cases rest with
  | nil => rfl
  | cons g gs =>
    simp only [envStrictB, Bool.and_eq_true] at h
    exact h.2

/-- `dropWhile` of a strictly increasing stack is strictly increasing. -/
theorem envStrictB_dropWhile (p : Nat × String → Bool) :
    ∀ (l : List (Nat × String)), envStrictB l = true →
      envStrictB (l.dropWhile p) = true
  | [], _ => rfl
  | f :: rest, h => by
    rw [List.dropWhile_cons]
    split
    · exact envStrictB_dropWhile p rest (envStrictB_tail f rest h)
    · exact h

/-- Pushing a frame strictly above the kept stack keeps it strictly
increasing. -/
theorem envStrictB_cons_of (i : Nat) (env : String) (kept : List (Nat × String))
    (hk : envStrictB kept = true) (hh : ∀ g gs, kept = g :: gs → g.1 < i) :
    envStrictB ((i, env) :: kept) = true := by
  cases kept with
  | nil => rfl
  | cons g gs =>
    simp only [envStrictB, Bool.and_eq_true, decide_eq_true_eq]
    exact ⟨hh g gs rfl, hk⟩

/-- Closing from a state satisfying the invariant succeeds and returns
the item indents of the kept frames: each popped list frame removes
exactly its own item indent. -/
theorem closeEnvs_inv (i : Nat) (size : Int) :
    ∀ (envs : List (Nat × String)), envStrictB envs = true →
      closeEnvs i size envs (enumsOf size envs) =
        Except.ok
          (((envs.takeWhile (fun f => decide (i ≤ f.1))).map (fun f => endTag f.2)).flatten,
           envs.dropWhile (fun f => decide (i ≤ f.1)),
           enumsOf size (envs.dropWhile (fun f => decide (i ≤ f.1))))
  | [], _ => by simp [closeEnvs, enumsOf]
  | (ind, env) :: rest, hs => by
    unfold closeEnvs
    by_cases hle : i ≤ ind
    · rw [if_pos hle]
      have hrm : (if isListEnv env then removeE ((ind : Int) + size)
            (enumsOf size ((ind, env) :: rest)) else Except.ok (enumsOf size ((ind, env) :: rest)))
          = Except.ok (enumsOf size rest) := by
        rw [enumsOf_cons]
        by_cases hl : isListEnv env
        · rw [if_pos hl, if_pos hl]
          exact removeE_append_once _ _
            (enumsOf_not_mem size ind rest (envStrictB_lt_head _ rest hs))
        · rw [if_neg hl, if_neg hl]
      rw [hrm]
      dsimp only
      rw [closeEnvs_inv i size rest (envStrictB_tail _ rest hs)]
      dsimp only
      rw [List.takeWhile_cons, List.dropWhile_cons, if_pos (decide_eq_true hle),
        if_pos (decide_eq_true hle)]
      simp
    · rw [if_neg hle]
      have hnd : ¬ (decide (i ≤ (ind, env).1) = true) := fun hc => hle (of_decide_eq_true hc)
      rw [List.takeWhile_cons, List.dropWhile_cons, if_neg hnd, if_neg hnd]
      simp

/-- The tracker invariant is preserved by every successful line step. -/
theorem processCore_inv (cfg : Config) (st : ConvState) (indent : Nat) (line2 : List Char)
    (st2 : ConvState) (out : List Char)
    (hinv : TrackerInv cfg.indentSize st)
    (hok : processCore cfg st indent line2 = Except.ok (st2, out)) :
    TrackerInv cfg.indentSize st2 := by
  obtain ⟨hstrict, henums⟩ := hinv
  unfold processCore at hok
  rw [henums, closeEnvs_inv indent cfg.indentSize st.environments hstrict] at hok
  dsimp only at hok
  split at hok
  · exact absurd hok (by simp)
  · rw [Except.ok.injEq, Prod.mk.injEq] at hok
    obtain ⟨hst, _⟩ := hok
    rw [← hst]
    have hkstrict : envStrictB (st.environments.dropWhile
        (fun f => decide (indent ≤ f.1))) = true :=
      envStrictB_dropWhile _ _ hstrict
    have hkh : ∀ g gs, st.environments.dropWhile (fun f => decide (indent ≤ f.1)) = g :: gs →
        g.1 < indent := fun g gs hgs => dropWhile_head_lt indent st.environments g gs hgs
    rcases he : envBegin (applyHeading line2) with _ | env
    · exact ⟨hkstrict, rfl⟩
    · exact ⟨envStrictB_cons_of indent env _ hkstrict hkh, by rw [enumsOf_cons]⟩

/-! ## Claim C6 (amended) -/

/-- C6 amended: for every successfully processed NON-EQUATION line, the
rendered line carries the item marker if and only if there is a
currently-open list frame whose `openIndent + indentSize` equals the
line's indent (frames taken after this line's closes and opens, i.e. in
the resulting state).  Equation lines are never marked
(`claim_C6_counterexample`); because the invariant ties `enum_indents`
to the open list frames, an indent stops being marked as soon as its
frame closes, until a new list frame recreates it. -/
theorem claim_C6_item_marking (cfg : Config) (st : ConvState) (raw : String)
    (st2 : ConvState) (out : List Char)
    (hinv : TrackerInv cfg.indentSize st)
    (hok : processLine cfg st raw = Except.ok (st2, out))
    (hne : matchEq (applyHeading (cleanLine cfg raw)) = none) :
    (renderInline st2.enumIndents (lineIndent raw) (applyHeading (cleanLine cfg raw)) =
       "\\item ".data ++ inlineSubs (applyHeading (cleanLine cfg raw))
     ↔ ∃ f, f ∈ st2.environments ∧ isListEnv f.2 = true ∧
         (lineIndent raw : Int) = (f.1 : Int) + cfg.indentSize) := by
  have hinv2 := processCore_inv cfg st (lineIndent raw) (cleanLine cfg raw) st2 out hinv hok
  unfold renderInline
  rw [hne]
  dsimp only
  by_cases hm : ((lineIndent raw : Int)) ∈ st2.enumIndents
  · rw [if_pos hm]
    constructor
    · intro _
      rw [hinv2.2] at hm
      exact (mem_enumsOf _ _ _).mp hm
    · intro _
      rfl
  · rw [if_neg hm]
    constructor
    · intro h
      have hlen := congrArg List.length h
      simp at hlen
      omega
    · intro hex
      exact absurd (by rw [hinv2.2]; exact (mem_enumsOf _ _ _).mpr hex) hm

/-- Witness for C6: a content line at indent 4 under an `itemize` frame
opened at indent 0 with indent size 4 is item-marked, and the iff holds
at that instance. -/
theorem claim_C6_witness :
    TrackerInv defaultConfig.indentSize ⟨none, some 0, [(0, "itemize")], [4]⟩ ∧
    processLine defaultConfig ⟨none, some 0, [(0, "itemize")], [4]⟩ "    y" =
      Except.ok (⟨none, some 0, [(0, "itemize")], [4]⟩, "\\item y".data) ∧
    matchEq (applyHeading (cleanLine defaultConfig "    y")) = none ∧
    (renderInline (ConvState.mk none (some 0) [(0, "itemize")] [4]).enumIndents
        (lineIndent "    y") (applyHeading (cleanLine defaultConfig "    y")) =
       "\\item ".data ++ inlineSubs (applyHeading (cleanLine defaultConfig "    y"))
     ↔ ∃ f, f ∈ (ConvState.mk none (some 0) [(0, "itemize")] [4]).environments ∧
         isListEnv f.2 = true ∧
         (lineIndent "    y" : Int) = (f.1 : Int) + defaultConfig.indentSize) :=
  ⟨by decide, by decide, by decide,
    claim_C6_item_marking defaultConfig ⟨none, some 0, [(0, "itemize")], [4]⟩ "    y"
      ⟨none, some 0, [(0, "itemize")], [4]⟩ "\\item y".data
      (by decide) (by decide) (by decide)⟩

/-! ## Claim C7 (amended) -/

/-- Content without `$` is taken whole by the equation regex. -/
theorem takeWhile_no_dollar (content : List Char) (hc : ∀ c ∈ content, c ≠ '$') :
    (content ++ ['$', '$']).takeWhile (fun c => !(c == '$')) = content := by
  induction content with
  | nil => rfl
  | cons c rest ih =>
    rw [List.cons_append, List.takeWhile_cons]
    have hcne : (!(c == '$')) = true := by
      simp [hc c (List.mem_cons_self _ _)]
    rw [if_pos hcne, ih (fun x hx => hc x (List.mem_cons.mpr (Or.inr hx)))]

/-- Past content without `$`, exactly the closing `$$` remains. -/
theorem dropWhile_no_dollar (content : List Char) (hc : ∀ c ∈ content, c ≠ '$') :
    (content ++ ['$', '$']).dropWhile (fun c => !(c == '$')) = ['$', '$'] := by
  induction content with
  | nil => rfl
  | cons c rest ih =>
    rw [List.cons_append, List.dropWhile_cons]
    have hcne : (!(c == '$')) = true := by
      simp [hc c (List.mem_cons_self _ _)]
    rw [if_pos hcne, ih (fun x hx => hc x (List.mem_cons.mpr (Or.inr hx)))]

/-- C7 amended: a line that is exactly `$$<content>$$` where the content
contains no `$` character is replaced by an `equation*` environment
wrapping the content, and every other inline rule — including the item
marking, for any item-indent set and any indent — is skipped.  (The
original claim's weaker proviso "no other `$$` inside" is not enough:
see `claim_C7_counterexample`.) -/
theorem claim_C7_equation_render (enums : List Int) (indent : Nat) (content : List Char)
    (hc : ∀ c ∈ content, c ≠ '$') :
    renderInline enums indent ('$' :: '$' :: (content ++ ['$', '$'])) =
      "\\begin\x7bequation*\x7d\n".data ++ content ++ "\n\\end\x7bequation*\x7d".data := by
  have hm : matchEq ('$' :: '$' :: (content ++ ['$', '$'])) = some content := by
    show (if (content ++ ['$', '$']).dropWhile (fun c => !(c == '$')) = ['$', '$']
        then some ((content ++ ['$', '$']).takeWhile (fun c => !(c == '$'))) else none) =
      some content
    rw [takeWhile_no_dollar content hc, dropWhile_no_dollar content hc]
    simp
  unfold renderInline
  simp [hm]

/-- Witness for C7 at Scenario 3, with a nonempty item-indent set that
would otherwise mark the line. -/
theorem claim_C7_witness :
    (∀ c ∈ "x^2 + y^2 = z^2".data, c ≠ '$') ∧
    renderInline [0] 0 ('$' :: '$' :: ("x^2 + y^2 = z^2".data ++ ['$', '$'])) =
      "\\begin\x7bequation*\x7d\n".data ++ "x^2 + y^2 = z^2".data ++
        "\n\\end\x7bequation*\x7d".data :=
  ⟨by decide, claim_C7_equation_render [0] 0 "x^2 + y^2 = z^2".data (by decide)⟩

/-! ## Claim C9 (amended) -/

/-- Leading spaces are all taken by the indent scan. -/
theorem takeWhile_replicate_space (n : Nat) :
    (List.replicate n ' ').takeWhile (fun c => c == ' ') = List.replicate n ' ' := by
  induction n with
  | zero => rfl
  | succ k ih =>
    rw [List.replicate_succ, List.takeWhile_cons, if_pos (by decide), ih,
      ← List.replicate_succ]

/-- A line of spaces has nothing after the indent scan. -/
theorem dropWhile_replicate_space (n : Nat) :
    (List.replicate n ' ').dropWhile (fun c => c == ' ') = [] := by
  induction n with
  | zero => rfl
  | succ k ih =>
    rw [List.replicate_succ, List.dropWhile_cons, if_pos (by decide), ih]

/-- The all-spaces line of length `n` has indent `n`. -/
theorem lineIndent_spacesOf (n : Nat) : lineIndent (spacesOf n) = n := by
  show ((List.replicate n ' ').takeWhile (fun c => c == ' ')).length = n
  rw [takeWhile_replicate_space, List.length_replicate]

/-- The all-spaces line cleans to the empty text. -/
theorem cleanLine_spacesOf (cfg : Config) (n : Nat) : cleanLine cfg (spacesOf n) = [] := by
  unfold cleanLine
  have h0 : dropIndent (spacesOf n).data = [] := dropWhile_replicate_space n
  rw [h0]
  show stripDirective (if ignoredCheck cfg.ignoreProps (stripBullet []) then []
    else stripBullet []) = []
  rw [show stripBullet [] = ([] : List Char) from rfl, ite_self]
  rfl

/-- The cleaned text of an ignored-property line is empty. -/
theorem cleanLine_ignored (cfg : Config) (raw : String) (hig : isIgnored cfg raw = true) :
    cleanLine cfg raw = [] := by
  unfold cleanLine
  unfold isIgnored at hig
  dsimp only
  rw [hig]
  rfl

/-- C9 amended: a line whose cleaned text begins with an ignored
property prefix behaves exactly like a line of the same indent with
empty content: the environment-closing and paragraph logic for its
indent still applies, and the rendered text is empty except that an
active item indent still prefixes the (empty) line with `\item `
(`claim_C9_counterexample`). -/
theorem claim_C9_ignored_blank (cfg : Config) (st : ConvState) (raw : String)
    (hig : isIgnored cfg raw = true) :
    processLine cfg st raw = processLine cfg st (spacesOf (lineIndent raw)) := by
  unfold processLine
  rw [cleanLine_ignored cfg raw hig, cleanLine_spacesOf cfg (lineIndent raw),
    lineIndent_spacesOf (lineIndent raw)]

/-- Witness for C9 at the concrete line `"tags:: hi"`. -/
theorem claim_C9_witness :
    isIgnored defaultConfig "tags:: hi" = true ∧
    processLine defaultConfig initState "tags:: hi" =
      processLine defaultConfig initState (spacesOf (lineIndent "tags:: hi")) :=
  ⟨by decide, claim_C9_ignored_blank defaultConfig initState "tags:: hi" (by decide)⟩
